import Mathlib

/-!
Verification of the markdown-processing core of `mdsite`
(`src/markdown.rs` and `src/md_parser.rs`).

Strings are embedded as `List Char` (Rust `&str` / `String`; all indices are
character indices, which agree with Rust's byte indices on the ASCII marker
strings the code searches for).  External crates (`toml`, `serde_yaml`,
`pulldown_cmark`'s parser/serializer, the `slug` crate) are not part of this
repository; deserializers are taken as function parameters, the parsed event
stream is taken as the input of the event-processing pipeline, and `slug::slugify`
is modelled concretely by its documented ASCII behaviour (lowercase
alphanumerics, every other character becomes a hyphen, hyphen runs collapsed,
ends trimmed) -- no claim below depends on the specifics of the slug function.
-/

/-- Rust `str::find` (substring search): index of the first occurrence of
`pat` in the string, if any.  `"".find` returns `some 0` on the empty pattern,
as in Rust. -/
def findSub (pat : List Char) : List Char → Option Nat
  | [] => if pat.isEmpty then some 0 else none
  | c :: rest =>
    if pat.isPrefixOf (c :: rest) then some 0
    else (findSub pat rest).map (fun n => n + 1)

/-- Rust `str::contains` for a literal substring pattern. -/
def containsSub (pat s : List Char) : Bool :=
  (findSub pat s).isSome

/-- Rust `str::replacen pat repl count`: replace the first `count`
occurrences of `pat` by `repl`. -/
def replacen (pat repl : List Char) : Nat → List Char → List Char
  | 0, s => s
  | k + 1, s =>
    match findSub pat s with
    | none => s
    | some ix => s.take ix ++ repl ++ replacen pat repl k (s.drop (ix + pat.length))

/-- Rust `str::trim`: remove leading and trailing whitespace. -/
def trimStr (s : List Char) : List Char :=
  ((s.dropWhile Char.isWhitespace).reverse.dropWhile Char.isWhitespace).reverse

/-- Rust `str::repeat`. -/
def strRepeat (s : List Char) (n : Nat) : List Char :=
  (List.replicate n s).flatten

/-- Number of elements of a token list equal to a given token. -/
def countTok (t : List Char) : List (List Char) → Nat
  | [] => 0
  | x :: xs => (if x = t then 1 else 0) + countTok t xs

/-- Source: `src/markdown.rs`, `TOML_START = "+++\n"`. -/
def TOML_START : List Char := ['+', '+', '+', '\n']

/-- Source: `src/markdown.rs`, `TOML_END = "\n+++\n"`. -/
def TOML_END : List Char := ['\n', '+', '+', '+', '\n']

/-- Source: `src/markdown.rs`, `YAML_START = "---\n"`. -/
def YAML_START : List Char := ['-', '-', '-', '\n']

/-- Source: `src/markdown.rs`, `YAML_END = "\n---\n"`. -/
def YAML_END : List Char := ['\n', '-', '-', '-', '\n']

/-- Source: `src/markdown.rs`, `enum Frontmatter`. -/
inductive Frontmatter : Type
  | Toml (s : List Char)
  | Yaml (s : List Char)
  | Empty
deriving DecidableEq, Repr

/-- Source: `src/markdown.rs`, `fn remove_frontmatter`.  When the text starts
with the opening marker, the search for the closing marker starts one
character before the end of the opening marker (`start.len() - 1`), so that
`"+++\n+++\n"` is recognized as an empty frontmatter block. -/
def remove_frontmatter (markdown start endTag : List Char) :
    List Char × List Char :=
  if start.isPrefixOf markdown then
    let rest := markdown.drop (start.length - 1)
    match findSub endTag rest with
    | some endIx =>
      (trimStr (rest.take endIx), trimStr (rest.drop (endIx + endTag.length)))
    | none => ([], markdown)
  else ([], markdown)

/-- Source: `src/markdown.rs`, `fn split_markdown`. -/
def split_markdown (markdown : List Char) : Frontmatter × List Char :=
  if TOML_START.isPrefixOf markdown then
    let fb := remove_frontmatter markdown TOML_START TOML_END
    (if fb.1.isEmpty then Frontmatter.Empty else Frontmatter.Toml fb.1, fb.2)
  else if YAML_START.isPrefixOf markdown then
    let fb := remove_frontmatter markdown YAML_START YAML_END
    (if fb.1.isEmpty then Frontmatter.Empty else Frontmatter.Yaml fb.1, fb.2)
  else (Frontmatter.Empty, markdown)

/-- Source: `src/error.rs` (not under scrutiny): the only `Error` variant the
markdown module constructs, `Error::FrontmatterParse(String)`. -/
inductive Error : Type
  | FrontmatterParse (msg : List Char)
deriving DecidableEq

/-- The error message `"no content"` of `Frontmatter::parse`. -/
def noContentMsg : List Char := ['n', 'o', ' ', 'c', 'o', 'n', 't', 'e', 'n', 't']

/-- The error message `"markdown file is missing header"`. -/
def missingHeaderMsg : List Char :=
  ['m', 'a', 'r', 'k', 'd', 'o', 'w', 'n', ' ', 'f', 'i', 'l', 'e', ' ', 'i', 's',
   ' ', 'm', 'i', 's', 's', 'i', 'n', 'g', ' ', 'h', 'e', 'a', 'd', 'e', 'r']

/-- Source: `src/markdown.rs`, `impl Frontmatter { fn parse<T> }`.  The
external deserializers `toml::from_str` and `serde_yaml::from_str` are taken
as parameters returning either a value or an error message. -/
def Frontmatter.parse {T : Type} (tomlFromStr yamlFromStr : List Char → Except (List Char) T) :
    Frontmatter → Except Error T
  | .Toml buf =>
    match tomlFromStr buf with
    | .ok v => .ok v
    | .error e => .error (.FrontmatterParse e)
  | .Yaml buf =>
    match yamlFromStr buf with
    | .ok v => .ok v
    | .error e => .error (.FrontmatterParse e)
  | .Empty => .error (.FrontmatterParse noContentMsg)

/-- Source: `src/markdown.rs`, `fn parse_frontmatter<T>`. -/
def parse_frontmatter {T : Type} (tomlFromStr yamlFromStr : List Char → Except (List Char) T)
    (front : Frontmatter) : Except Error T :=
  match front with
  | .Toml data =>
    match tomlFromStr data with
    | .ok ghd => .ok ghd
    | .error e => .error (.FrontmatterParse e)
  | .Yaml data =>
    match yamlFromStr data with
    | .ok ghd => .ok ghd
    | .error e => .error (.FrontmatterParse e)
  | .Empty => .error (.FrontmatterParse missingHeaderMsg)

/-- Source: `src/markdown.rs`, `fn parse_frontmatter_to_map`.  The external
`str::parse::<toml::Value>` is a parameter returning some value type `V`;
`asTable` extracts the `Value::Table` case; `yamlFromStr` is the external
YAML deserializer into the map type. -/
def parse_frontmatter_to_map {V M : Type} (parseValue : List Char → Except (List Char) V)
    (asTable : V → Option M) (yamlFromStr : List Char → Except (List Char) M)
    (front : Frontmatter) : Except Error M :=
  match front with
  | .Toml data =>
    match parseValue data with
    | .error e => .error (.FrontmatterParse e)
    | .ok v =>
      match asTable v with
      | some table => .ok table
      | none => .error (.FrontmatterParse
          ['E', 'x', 'p', 'e', 'c', 't', 'e', 'd', ' ', 't', 'o', 'm', 'l',
           ' ', 'v', 'a', 'l', 'u', 'e', 's'])
  | .Yaml data =>
    match yamlFromStr data with
    | .ok ghd => .ok ghd
    | .error e => .error (.FrontmatterParse e)
  | .Empty => .error (.FrontmatterParse missingHeaderMsg)

/-- Source: `src/md_parser.rs`, `MAX_TOC_DEPTH: u8 = 4`. -/
def MAX_TOC_DEPTH : Nat := 4

/-- Source: `src/md_parser.rs`, `TOC_FLAG = "<!-- toc -->"`. -/
def TOC_FLAG : List Char :=
  ['<', '!', '-', '-', ' ', 't', 'o', 'c', ' ', '-', '-', '>']

/-- Source: `src/md_parser.rs`, `TOC_INDENT = "<div>"`. -/
def TOC_INDENT : List Char := ['<', 'd', 'i', 'v', '>']

/-- Source: `src/md_parser.rs`, `TOC_END_INDENT = "</div>"`. -/
def TOC_END_INDENT : List Char := ['<', '/', 'd', 'i', 'v', '>']

/-- Source: `src/md_parser.rs`, `TOC_ITEM = "<p>"`. -/
def TOC_ITEM : List Char := ['<', 'p', '>']

/-- Source: `src/md_parser.rs`, `TOC_END_ITEM = "</p>"`. -/
def TOC_END_ITEM : List Char := ['<', '/', 'p', '>']

/-- The `pulldown_cmark::Tag` constructors the code inspects.  `Heading`
carries the heading level (a `u32` in pulldown-cmark 0.8); `Link` carries a
link type (opaque, encoded as a number), destination and title; every other
tag is collapsed into `Other` with a numeric identity, since the code treats
all of them uniformly via catch-all match arms. -/
inductive Tag : Type
  | Heading (level : Nat)
  | Link (linkType : Nat) (dest : List Char) (title : List Char)
  | Other (id : Nat)
deriving DecidableEq, Repr

/-- The `pulldown_cmark::Event` constructors the code inspects; any other
event kind is collapsed into `Other` with a numeric identity. -/
inductive Event : Type
  | Start (t : Tag)
  | End (t : Tag)
  | Text (s : List Char)
  | Html (s : List Char)
  | Other (id : Nat)
deriving DecidableEq, Repr

/-- Source: `src/md_parser.rs`, `enum HeadingParseState`. -/
inductive HeadingParseState : Type
  | Idle
  | HeadingStarted (ix : Nat) (level : Nat)
  | HeadingTextParsed (ix : Nat) (textIx : Nat) (level : Nat) (text : List Char)
deriving DecidableEq, Repr

/-- External `slug` crate, ASCII behaviour of one input character: keep
lowercase alphanumerics, everything else becomes a hyphen. -/
def slugChar (c : Char) : Char :=
  if c.isAlphanum then c.toLower else '-'

/-- Collapse runs of consecutive hyphens into a single hyphen. -/
def collapseDashes : List Char → List Char
  | [] => []
  | [c] => [c]
  | a :: b :: rest =>
    if a = '-' && b = '-' then collapseDashes (b :: rest)
    else a :: collapseDashes (b :: rest)

/-- Strip leading and trailing hyphens. -/
def trimDashes (s : List Char) : List Char :=
  ((s.dropWhile (fun c => c = '-')).reverse.dropWhile (fun c => c = '-')).reverse

/-- Source: `src/md_parser.rs`, `fn slugify_heading_for_anchor`, a thin
wrapper over the external `slug::slugify`, modelled by its ASCII behaviour.
No theorem below depends on the particular function used here. -/
def slugify_heading_for_anchor (s : List Char) : List Char :=
  trimDashes (collapseDashes (s.map slugChar))

/-- Source: `src/md_parser.rs`, `struct Heading`. -/
structure Heading : Type where
  index : Nat × Nat × Nat
  level : Nat
  text : List Char
  slug : List Char
deriving DecidableEq, Repr

/-- Source: `src/md_parser.rs`, `Heading::html_start_element`, the string
`"<h" ++ level ++ " id=\"" ++ slug ++ "\">"`. -/
def Heading.html_start_element (h : Heading) : List Char :=
  ['<', 'h'] ++ Nat.toDigits 10 h.level ++ [' ', 'i', 'd', '=', '"'] ++ h.slug ++ ['"', '>']

/-- One step of the `fix_headings` scan: the `match (event, &state)` block of
`src/md_parser.rs` at event index `i`, returning the next state and the
emitted heading, if any.  Rust stores the level as `*level as u8`, embedded
as `% 256`. -/
def headingStep (i : Nat) (e : Event) (st : HeadingParseState) :
    HeadingParseState × Option Heading :=
  match e, st with
  | .Start (.Heading level), .Idle => (.HeadingStarted i (level % 256), none)
  | .Text text, .HeadingStarted ix level => (.HeadingTextParsed ix i level text, none)
  | .End (.Heading endLevel), .HeadingTextParsed ix textIx startLevel text =>
    if endLevel % 256 = startLevel then
      (.Idle, some { index := (ix, textIx, i), level := startLevel, text := text,
                     slug := slugify_heading_for_anchor text })
    else (.HeadingTextParsed ix textIx startLevel text, none)
  | _, st => (st, none)

/-- The scan loop of `fix_headings`: left-to-right over the events, starting
at index `i` in state `st`, collecting the emitted headings in order. -/
def scanHeadings : List Event → Nat → HeadingParseState → List Heading
  | [], _, _ => []
  | e :: rest, i, st =>
    match (headingStep i e st).2 with
    | some hd => hd :: scanHeadings rest (i + 1) (headingStep i e st).1
    | none => scanHeadings rest (i + 1) (headingStep i e st).1

/-- The patch loop of `fix_headings`: for every emitted heading, overwrite
the event at its start index with the id-carrying HTML start element. -/
def applyHeadingPatches (events : List Event) (headings : List Heading) : List Event :=
  headings.foldl
    (fun evs h => evs.set h.index.1 (Event.Html h.html_start_element)) events

/-- Source: `src/md_parser.rs`, `fn fix_headings(events: &mut [Event]) ->
Vec<Heading>`; the in-place mutation is embedded by returning the patched
event list next to the headings. -/
def fix_headings (events : List Event) : List Event × List Heading :=
  let headings := scanHeadings events 0 .Idle
  (applyHeadingPatches events headings, headings)

/-- Source: `src/md_parser.rs`, `fn toc_item_html`:
`"<p><a href=\"#" ++ href ++ "\">" ++ text ++ "</a></p>"`. -/
def toc_item_html (href text : List Char) : List Char :=
  TOC_ITEM ++ ['<', 'a', ' ', 'h', 'r', 'e', 'f', '=', '"', '#'] ++ href ++ ['"', '>']
    ++ text ++ ['<', '/', 'a', '>'] ++ TOC_END_ITEM

/-- The `for` loop of `generate_toc_html` over the already-filtered headings,
with the running `indent`; after the last heading the remaining `indent`
close markers are appended. -/
def tocLoop : List Heading → Nat → List Char
  | [], indent => strRepeat TOC_END_INDENT indent
  | h :: rest, indent =>
    (if indent < h.level then strRepeat TOC_INDENT (h.level - indent)
     else if h.level < indent then strRepeat TOC_END_INDENT (indent - h.level)
     else [])
      ++ toc_item_html h.slug h.text ++ tocLoop rest h.level

/-- Source: `src/md_parser.rs`, `fn generate_toc_html(headings, max_depth)`. -/
def generate_toc_html (headings : List Heading) (max_depth : Nat) : List Char :=
  tocLoop (headings.filter fun h => decide (1 ≤ h.level) && decide (h.level ≤ max_depth)) 0

/-- The same loop as `tocLoop`, recorded as the list of strings pushed by the
individual `push_str` calls (each group marker pushed separately): the flat
TOC string is the concatenation of these tokens. -/
def tocEmit : List Heading → Nat → List (List Char)
  | [], indent => List.replicate indent TOC_END_INDENT
  | h :: rest, indent =>
    (if indent < h.level then List.replicate (h.level - indent) TOC_INDENT
     else if h.level < indent then List.replicate (indent - h.level) TOC_END_INDENT
     else [])
      ++ (toc_item_html h.slug h.text :: tocEmit rest h.level)

/-- Token-level view of `generate_toc_html`. -/
def tocTokens (headings : List Heading) (max_depth : Nat) : List (List Char) :=
  tocEmit (headings.filter fun h => decide (1 ≤ h.level) && decide (h.level ≤ max_depth)) 0

/-- The test on an `Event` that sets `enable_toc` in the mapping closure of
`markdown_to_html`: a raw-HTML event whose content contains `TOC_FLAG`. -/
def isTocHtmlEvent : Event → Bool
  | .Html s => containsSub TOC_FLAG s
  | _ => false

/-- The per-event rewrite applied in the mapping closure of
`markdown_to_html`: an empty link destination becomes `"#"`, and the first
occurrence of `TOC_FLAG` is removed from a raw-HTML event that contains it. -/
def mapEvent : Event → Event
  | .Start (.Link linkType dest title) =>
    if dest.isEmpty then .Start (.Link linkType ['#'] title)
    else .Start (.Link linkType dest title)
  | .Html markup =>
    if containsSub TOC_FLAG markup then .Html (replacen TOC_FLAG [] 1 markup)
    else .Html markup
  | e => e

/-- Source: `src/md_parser.rs`, `struct ParseResult`; `content` is embedded
as the final event sequence handed to the external serializer
`pulldown_cmark::html::push_html`. -/
structure ParseResult : Type where
  content : List Event
  toc : Option (List Char)
deriving DecidableEq, Repr

/-- Source: `src/md_parser.rs`, `fn markdown_to_html`, starting from the
event stream `parsed` produced by the external `pulldown_cmark::Parser` on
the input text.  The Rust code sets `enable_toc` from inside the mapping
closure while collecting; after the `collect`, the flag is true exactly when
some parsed raw-HTML event contains `TOC_FLAG`, which is how it is embedded
here. -/
def markdown_to_html (parsed : List Event) : ParseResult :=
  let enable_toc := parsed.any isTocHtmlEvent
  let events := parsed.map mapEvent
  if enable_toc then
    let fh := fix_headings events
    { content := fh.1, toc := some (generate_toc_html fh.2 MAX_TOC_DEPTH) }
  else
    { content := events, toc := none }

/-- Invariant carried by the `fix_headings` scan at position `i` over the
full event list `F`: the indices stored in the state are strictly before
`i`, and the stored start index really holds a heading-start event whose
level reduces to the stored level. -/
def StInv (F : List Event) (i : Nat) : HeadingParseState → Prop
  | .Idle => True
  | .HeadingStarted ix lv =>
    ix < i ∧ ∃ L, F[ix]? = some (Event.Start (Tag.Heading L)) ∧ L % 256 = lv
  | .HeadingTextParsed ix textIx lv _ =>
    ix < textIx ∧ textIx < i ∧
      ∃ L, F[ix]? = some (Event.Start (Tag.Heading L)) ∧ L % 256 = lv

/-- Lower bound for the start index of the next emitted heading, given the
current position and state. -/
def stLow (i : Nat) : HeadingParseState → Nat
  | .Idle => i
  | .HeadingStarted ix _ => ix
  | .HeadingTextParsed ix _ _ _ => ix

/-- Strict document order of a heading list: starting from lower bound `lo`,
each heading has `lo ≤ start < text < end < n`, and the next heading starts
after this one's end. -/
def HeadChain (n : Nat) : Nat → List Heading → Prop
  | _, [] => True
  | lo, h :: hs =>
    lo ≤ h.index.1 ∧ h.index.1 < h.index.2.1 ∧ h.index.2.1 < h.index.2.2 ∧
      h.index.2.2 < n ∧ HeadChain n (h.index.2.2 + 1) hs

/-- Every heading's start index holds, in `F`, a heading-start event of the
corresponding level. -/
def HeadsOK (F : List Event) (hs : List Heading) : Prop :=
  ∀ h ∈ hs, ∃ L, F[h.index.1]? = some (Event.Start (Tag.Heading L)) ∧ L % 256 = h.level

/-- A small concrete event sequence with one well-formed heading. -/
def sampleHeadingEvents : List Event :=
  [Event.Start (Tag.Heading 2), Event.Text ['h', 'i'], Event.End (Tag.Heading 2)]

/-- Events for the C4 witness: a well-formed heading followed by a raw-HTML
block containing the TOC marker. -/
def sampleTocEvents : List Event :=
  [Event.Start (Tag.Heading 1), Event.Text ['t'], Event.End (Tag.Heading 1),
   Event.Html ("a<!-- toc -->b".toList)]


/-! Helper lemmas about the string primitives. -/

theorem isPrefixOf_append_self (l x : List Char) : l.isPrefixOf (l ++ x) = true := by
  rw [List.isPrefixOf_iff_prefix]
  exact List.prefix_append l x

theorem drop_append_len (P Z : List Char) (k : Nat) :
    (P ++ Z).drop (P.length + k) = Z.drop k := by
  rw [← List.drop_drop, List.drop_left]

theorem trimStr_cons_ws (c : Char) (s : List Char) (h : c.isWhitespace = true) :
    trimStr (c :: s) = trimStr s := by
  simp [trimStr, List.dropWhile_cons, h]

theorem toml_not_prefix_of_yaml (X : List Char) :
    TOML_START.isPrefixOf (YAML_START ++ X) = false := by
  have h : ('+' == '-') = false := by decide
  simp [TOML_START, YAML_START, List.isPrefixOf, h]

/-! Frontmatter splitting: claims C5, C6, C1. -/

/-- C5: for a document that begins with an open marker (`+++\n` or `---\n`)
and whose remainder (searched, as the code does, starting at the open
marker's trailing newline) contains the matching close marker right after
the payload `P`, the frontmatter payload is `P` trimmed, the body is the
text `B` after the close marker trimmed, and an empty trimmed payload gives
`Frontmatter.Empty` while the body is still taken from after the close
marker. -/
theorem split_markdown_frontmatter_found (P B : List Char) :
    (findSub TOML_END ('\n' :: (P ++ TOML_END ++ B)) = some (P.length + 1) →
      split_markdown (TOML_START ++ P ++ TOML_END ++ B)
        = (if (trimStr P).isEmpty then Frontmatter.Empty else Frontmatter.Toml (trimStr P),
           trimStr B)) ∧
    (findSub YAML_END ('\n' :: (P ++ YAML_END ++ B)) = some (P.length + 1) →
      split_markdown (YAML_START ++ P ++ YAML_END ++ B)
        = (if (trimStr P).isEmpty then Frontmatter.Empty else Frontmatter.Yaml (trimStr P),
           trimStr B)) := by
  constructor
  · intro hfind
    have hpre : TOML_START.isPrefixOf (TOML_START ++ P ++ TOML_END ++ B) = true := by
      have := isPrefixOf_append_self TOML_START (P ++ TOML_END ++ B)
      simpa [List.append_assoc] using this
    have hdrop : (TOML_START ++ P ++ TOML_END ++ B).drop (TOML_START.length - 1)
        = '\n' :: (P ++ TOML_END ++ B) := by
      simp [TOML_START, List.append_assoc]
    have htake : ('\n' :: (P ++ TOML_END ++ B)).take (P.length + 1) = '\n' :: P := by
      simp [List.take_cons, List.append_assoc]
    have hdrop2 : ('\n' :: (P ++ TOML_END ++ B)).drop (P.length + 1 + TOML_END.length) = B := by
      show ('\n' :: (P ++ TOML_END ++ B)).drop (P.length + 1 + 5) = B
      have h1 : P.length + 1 + 5 = (P.length + 5) + 1 := by omega
      rw [h1, List.drop_succ_cons]
      have h2 : (P ++ TOML_END ++ B).drop (P.length + 5) = (TOML_END ++ B).drop 5 := by
        rw [List.append_assoc]
        exact drop_append_len P (TOML_END ++ B) 5
      rw [h2]
      simp [TOML_END]
    simp only [split_markdown, remove_frontmatter, hpre, if_true, hdrop, hfind, htake, hdrop2]
    rw [trimStr_cons_ws '\n' P (by decide)]
  · intro hfind
    have hyaml : YAML_START.isPrefixOf (YAML_START ++ P ++ YAML_END ++ B) = true := by
      have := isPrefixOf_append_self YAML_START (P ++ YAML_END ++ B)
      simpa [List.append_assoc] using this
    have htoml : TOML_START.isPrefixOf (YAML_START ++ P ++ YAML_END ++ B) = false := by
      have := toml_not_prefix_of_yaml (P ++ YAML_END ++ B)
      simpa [List.append_assoc] using this
    have hdrop : (YAML_START ++ P ++ YAML_END ++ B).drop (YAML_START.length - 1)
        = '\n' :: (P ++ YAML_END ++ B) := by
      simp [YAML_START, List.append_assoc]
    have htake : ('\n' :: (P ++ YAML_END ++ B)).take (P.length + 1) = '\n' :: P := by
      simp [List.take_cons, List.append_assoc]
    have hdrop2 : ('\n' :: (P ++ YAML_END ++ B)).drop (P.length + 1 + YAML_END.length) = B := by
      show ('\n' :: (P ++ YAML_END ++ B)).drop (P.length + 1 + 5) = B
      have h1 : P.length + 1 + 5 = (P.length + 5) + 1 := by omega
      rw [h1, List.drop_succ_cons]
      have h2 : (P ++ YAML_END ++ B).drop (P.length + 5) = (YAML_END ++ B).drop 5 := by
        rw [List.append_assoc]
        exact drop_append_len P (YAML_END ++ B) 5
      rw [h2]
      simp [YAML_END]
    simp only [split_markdown, remove_frontmatter, htoml, Bool.false_eq_true, if_false,
      hyaml, if_true, hdrop, hfind, htake, hdrop2]
    rw [trimStr_cons_ws '\n' P (by decide)]

/-- Witness for C5 at a concrete document in each format. -/
theorem split_markdown_frontmatter_found_witness :
    (findSub TOML_END ('\n' :: (['x'] ++ TOML_END ++ ['y'])) = some (List.length ['x'] + 1) ∧
      split_markdown (TOML_START ++ ['x'] ++ TOML_END ++ ['y'])
        = (if (trimStr ['x']).isEmpty then Frontmatter.Empty
           else Frontmatter.Toml (trimStr ['x']), trimStr ['y'])) ∧
    (findSub YAML_END ('\n' :: ([' '] ++ YAML_END ++ ['y'])) = some (List.length [' '] + 1) ∧
      split_markdown (YAML_START ++ [' '] ++ YAML_END ++ ['y'])
        = (if (trimStr [' ']).isEmpty then Frontmatter.Empty
           else Frontmatter.Yaml (trimStr [' ']), trimStr ['y'])) :=
  ⟨⟨by decide, (split_markdown_frontmatter_found ['x'] ['y']).1 (by decide)⟩,
   ⟨by decide, (split_markdown_frontmatter_found [' '] ['y']).2 (by decide)⟩⟩

/-- C6: if the text starts with neither open marker, or starts with an open
marker but the code's close-marker search (over the text from the open
marker's trailing newline on) finds nothing, then `split_markdown` returns
`Frontmatter.Empty` together with the whole original text, untrimmed. -/
theorem split_markdown_no_frontmatter (md : List Char) :
    (TOML_START.isPrefixOf md = false → YAML_START.isPrefixOf md = false →
      split_markdown md = (Frontmatter.Empty, md)) ∧
    (TOML_START.isPrefixOf md = true →
      findSub TOML_END (md.drop (TOML_START.length - 1)) = none →
      split_markdown md = (Frontmatter.Empty, md)) ∧
    (YAML_START.isPrefixOf md = true →
      findSub YAML_END (md.drop (YAML_START.length - 1)) = none →
      split_markdown md = (Frontmatter.Empty, md)) := by
  refine ⟨?_, ?_, ?_⟩
  · intro h1 h2
    simp [split_markdown, h1, h2]
  · intro h1 h2
    simp [split_markdown, remove_frontmatter, h1, h2]
  · intro h1 h2
    have h0 : TOML_START.isPrefixOf md = false := by
      rw [List.isPrefixOf_iff_prefix] at h1
      obtain ⟨t, rfl⟩ := h1
      exact toml_not_prefix_of_yaml t
    simp [split_markdown, remove_frontmatter, h0, h1, h2]

/-- Witness for C6 at one concrete input per case. -/
theorem split_markdown_no_frontmatter_witness :
    split_markdown ("hello").toList = (Frontmatter.Empty, ("hello").toList) ∧
    split_markdown ("+++\nhello").toList = (Frontmatter.Empty, ("+++\nhello").toList) ∧
    split_markdown ("---\nhello").toList = (Frontmatter.Empty, ("---\nhello").toList) :=
  ⟨(split_markdown_no_frontmatter ("hello").toList).1 (by decide) (by decide),
   (split_markdown_no_frontmatter ("+++\nhello").toList).2.1 (by decide) (by decide),
   (split_markdown_no_frontmatter ("---\nhello").toList).2.2 (by decide) (by decide)⟩

/-- C1 counterexample: on `"+++\n+++\nhello"` the split returns
`Frontmatter.Empty` (the delimited block is present but its trimmed payload
is empty), yet the returned body is `"hello"`, not the original text. -/
theorem split_markdown_c1_cex :
    (split_markdown ("+++\n+++\nhello").toList).1 = Frontmatter.Empty ∧
    (split_markdown ("+++\n+++\nhello").toList).2 ≠ ("+++\n+++\nhello").toList := by
  decide

/-- C1 amended: when `split_markdown` returns `Frontmatter.Empty`, the body
is the original text unmodified -- except when an open marker is present and
the close-marker search succeeds (which covers the empty-trimmed-payload
case), in which case the body is the text after the close marker, trimmed. -/
theorem split_markdown_empty_cases (md : List Char)
    (h : (split_markdown md).1 = Frontmatter.Empty) :
    (split_markdown md).2 = md ∨
    ∃ ix,
      (TOML_START.isPrefixOf md = true ∧
        findSub TOML_END (md.drop (TOML_START.length - 1)) = some ix ∧
        (split_markdown md).2
          = trimStr ((md.drop (TOML_START.length - 1)).drop (ix + TOML_END.length))) ∨
      (YAML_START.isPrefixOf md = true ∧
        findSub YAML_END (md.drop (YAML_START.length - 1)) = some ix ∧
        (split_markdown md).2
          = trimStr ((md.drop (YAML_START.length - 1)).drop (ix + YAML_END.length))) := by
  by_cases hT : TOML_START.isPrefixOf md = true
  · cases hF : findSub TOML_END (md.drop (TOML_START.length - 1)) with
    | none =>
      left
      simp [split_markdown, remove_frontmatter, hT, hF]
    | some ix =>
      right
      refine ⟨ix, Or.inl ⟨hT, rfl, ?_⟩⟩
      simp [split_markdown, remove_frontmatter, hT, hF]
  · have hT' : TOML_START.isPrefixOf md = false := by
      cases hq : TOML_START.isPrefixOf md
      · rfl
      · exact absurd hq hT
    by_cases hY : YAML_START.isPrefixOf md = true
    · cases hF : findSub YAML_END (md.drop (YAML_START.length - 1)) with
      | none =>
        left
        simp [split_markdown, remove_frontmatter, hT', hY, hF]
      | some ix =>
        right
        refine ⟨ix, Or.inr ⟨hY, rfl, ?_⟩⟩
        simp [split_markdown, remove_frontmatter, hT', hY, hF]
    · have hY' : YAML_START.isPrefixOf md = false := by
        cases hq : YAML_START.isPrefixOf md
        · rfl
        · exact absurd hq hY
      left
      simp [split_markdown, hT', hY']

/-- Witness for the amended C1 at a concrete input. -/
theorem split_markdown_empty_cases_witness :
    (split_markdown ['h', 'i']).1 = Frontmatter.Empty ∧
    ((split_markdown ['h', 'i']).2 = ['h', 'i'] ∨
    ∃ ix,
      (TOML_START.isPrefixOf ['h', 'i'] = true ∧
        findSub TOML_END (List.drop (TOML_START.length - 1) ['h', 'i']) = some ix ∧
        (split_markdown ['h', 'i']).2
          = trimStr ((List.drop (TOML_START.length - 1) ['h', 'i']).drop (ix + TOML_END.length))) ∨
      (YAML_START.isPrefixOf ['h', 'i'] = true ∧
        findSub YAML_END (List.drop (YAML_START.length - 1) ['h', 'i']) = some ix ∧
        (split_markdown ['h', 'i']).2
          = trimStr ((List.drop (YAML_START.length - 1) ['h', 'i']).drop (ix + YAML_END.length)))) :=
  ⟨by decide, split_markdown_empty_cases ['h', 'i'] (by decide)⟩

/-- C9: each of the three metadata decoders, invoked on `Frontmatter.Empty`,
returns the explicit missing-metadata error (`Error::FrontmatterParse`),
for arbitrary caller-specified result types and external deserializers. -/
theorem frontmatter_empty_parse_error {T V M : Type}
    (tomlFromStr yamlFromStr : List Char → Except (List Char) T)
    (parseValue : List Char → Except (List Char) V)
    (asTable : V → Option M) (yamlMapFromStr : List Char → Except (List Char) M) :
    Frontmatter.parse tomlFromStr yamlFromStr Frontmatter.Empty
      = Except.error (Error.FrontmatterParse noContentMsg) ∧
    parse_frontmatter tomlFromStr yamlFromStr Frontmatter.Empty
      = Except.error (Error.FrontmatterParse missingHeaderMsg) ∧
    parse_frontmatter_to_map parseValue asTable yamlMapFromStr Frontmatter.Empty
      = Except.error (Error.FrontmatterParse missingHeaderMsg) :=
  ⟨rfl, rfl, rfl⟩

/-! The heading scan of `fix_headings`: structural lemmas. -/

theorem headingStep_cases (i : Nat) (e : Event) (st : HeadingParseState) :
    headingStep i e st = (st, none)
    ∨ (∃ L, e = Event.Start (Tag.Heading L) ∧ st = .Idle ∧
        headingStep i e st = (.HeadingStarted i (L % 256), none))
    ∨ (∃ s ix lv, e = Event.Text s ∧ st = .HeadingStarted ix lv ∧
        headingStep i e st = (.HeadingTextParsed ix i lv s, none))
    ∨ (∃ L ix tx lv t, e = Event.End (Tag.Heading L) ∧
        st = .HeadingTextParsed ix tx lv t ∧ L % 256 = lv ∧
        headingStep i e st
          = (.Idle, some { index := (ix, tx, i), level := lv, text := t,
                           slug := slugify_heading_for_anchor t })) := by
  cases e with
  | Start t =>
    cases t with
    | Heading L =>
      cases st with
      | Idle => exact Or.inr (Or.inl ⟨L, rfl, rfl, rfl⟩)
      | HeadingStarted ix lv => exact Or.inl rfl
      | HeadingTextParsed ix tx lv tt => exact Or.inl rfl
    | Link a b c => exact Or.inl (by cases st <;> rfl)
    | Other k => exact Or.inl (by cases st <;> rfl)
  | End t =>
    cases t with
    | Heading L =>
      cases st with
      | Idle => exact Or.inl rfl
      | HeadingStarted ix lv => exact Or.inl rfl
      | HeadingTextParsed ix tx lv tt =>
        by_cases hL : L % 256 = lv
        · exact Or.inr (Or.inr (Or.inr
            ⟨L, ix, tx, lv, tt, rfl, rfl, hL, by simp [headingStep, hL]⟩))
        · exact Or.inl (by simp [headingStep, hL])
    | Link a b c => exact Or.inl (by cases st <;> rfl)
    | Other k => exact Or.inl (by cases st <;> rfl)
  | Text s =>
    cases st with
    | Idle => exact Or.inl rfl
    | HeadingStarted ix lv => exact Or.inr (Or.inr (Or.inl ⟨s, ix, lv, rfl, rfl, rfl⟩))
    | HeadingTextParsed ix tx lv tt => exact Or.inl rfl
  | Html s => exact Or.inl (by cases st <;> rfl)
  | Other k => exact Or.inl (by cases st <;> rfl)

theorem scanHeadings_cons_none (e : Event) (rest : List Event) (i : Nat)
    (st st' : HeadingParseState) (h : headingStep i e st = (st', none)) :
    scanHeadings (e :: rest) i st = scanHeadings rest (i + 1) st' := by
  simp only [scanHeadings, h]

theorem scanHeadings_cons_some (e : Event) (rest : List Event) (i : Nat)
    (st st' : HeadingParseState) (hd : Heading)
    (h : headingStep i e st = (st', some hd)) :
    scanHeadings (e :: rest) i st = hd :: scanHeadings rest (i + 1) st' := by
  simp only [scanHeadings, h]

theorem StInv_succ (F : List Event) (i : Nat) (st : HeadingParseState)
    (h : StInv F i st) : StInv F (i + 1) st := by
  cases st with
  | Idle => trivial
  | HeadingStarted ix lv => exact ⟨Nat.lt_succ_of_lt h.1, h.2⟩
  | HeadingTextParsed ix tx lv t => exact ⟨h.1, Nat.lt_succ_of_lt h.2.1, h.2.2⟩

theorem stLow_succ_le (i : Nat) (st : HeadingParseState) :
    stLow i st ≤ stLow (i + 1) st := by
  cases st <;> simp [stLow]

theorem HeadChain_mono (n : Nat) (lo lo' : Nat) (hs : List Heading)
    (hle : lo' ≤ lo) (h : HeadChain n lo hs) : HeadChain n lo' hs := by
  cases hs with
  | nil => trivial
  | cons hd tl => exact ⟨Nat.le_trans hle h.1, h.2⟩

/-- The central invariant of the `fix_headings` scan: starting anywhere in
the event list with a well-formed state, the emitted headings are chained in
strict document order within bounds, and every emitted start index holds a
heading-start event of the recorded level. -/
theorem scan_spec (rest : List Event) :
    ∀ (i : Nat) (st : HeadingParseState) (F : List Event),
      F.drop i = rest → StInv F i st →
      HeadChain F.length (stLow i st) (scanHeadings rest i st) ∧
        HeadsOK F (scanHeadings rest i st) := by
  induction rest with
  | nil =>
    intro i st F _ _
    constructor
    · simp [scanHeadings, HeadChain]
    · intro h hmem
      simp [scanHeadings] at hmem
  | cons e rest ih =>
    intro i st F hdrop hinv
    have hget : F[i]? = some e := by
      have : (F.drop i)[0]? = some e := by rw [hdrop]; simp
      rwa [List.getElem?_drop] at this
    have hlen : i < F.length := by
      by_contra hcon
      have : F[i]? = none := List.getElem?_eq_none (Nat.le_of_not_lt hcon)
      rw [this] at hget
      exact Option.noConfusion hget
    have hdrop' : F.drop (i + 1) = rest := by
      have h1 : F.drop (i + 1) = (F.drop i).drop 1 := by
        rw [List.drop_drop]
      rw [h1, hdrop]
      rfl
    rcases headingStep_cases i e st with hstep | ⟨L, he, hst, hstep⟩ |
      ⟨s, ix, lv, he, hst, hstep⟩ | ⟨L, ix, tx, lv, t, he, hst, hL, hstep⟩
    · rw [scanHeadings_cons_none e rest i st st hstep]
      obtain ⟨h1, h2⟩ := ih (i + 1) st F hdrop' (StInv_succ F i st hinv)
      exact ⟨HeadChain_mono F.length (stLow (i + 1) st) (stLow i st) _
        (stLow_succ_le i st) h1, h2⟩
    · subst he hst
      rw [scanHeadings_cons_none _ rest i _ _ hstep]
      have hinv' : StInv F (i + 1) (.HeadingStarted i (L % 256)) :=
        ⟨Nat.lt_succ_self i, L, hget, rfl⟩
      obtain ⟨h1, h2⟩ := ih (i + 1) _ F hdrop' hinv'
      exact ⟨h1, h2⟩
    · subst he hst
      rw [scanHeadings_cons_none _ rest i _ _ hstep]
      obtain ⟨hix, L0, hg, hL0⟩ := hinv
      have hinv' : StInv F (i + 1) (.HeadingTextParsed ix i lv s) :=
        ⟨hix, Nat.lt_succ_self i, L0, hg, hL0⟩
      obtain ⟨h1, h2⟩ := ih (i + 1) _ F hdrop' hinv'
      exact ⟨h1, h2⟩
    · subst he hst
      rw [scanHeadings_cons_some _ rest i _ _ _ hstep]
      obtain ⟨hixtx, htxi, L0, hg, hL0⟩ := hinv
      have hinv' : StInv F (i + 1) .Idle := trivial
      obtain ⟨h1, h2⟩ := ih (i + 1) .Idle F hdrop' hinv'
      constructor
      · exact ⟨Nat.le_refl ix, hixtx, htxi, hlen, h1⟩
      · intro h hmem
        rcases List.mem_cons.mp hmem with hh | hh
        · subst hh
          exact ⟨L0, hg, hL0⟩
        · exact h2 h hh

/-! The patch loop of `fix_headings`. -/

theorem HeadChain_facts (n : Nat) (hs : List Heading) :
    ∀ (lo : Nat), HeadChain n lo hs → ∀ h ∈ hs,
      lo ≤ h.index.1 ∧ h.index.1 < h.index.2.1 ∧ h.index.2.1 < h.index.2.2 ∧
        h.index.2.2 < n := by
  induction hs with
  | nil =>
    intro lo _ h hmem
    simp at hmem
  | cons hd tl ih =>
    intro lo hch h hmem
    rcases List.mem_cons.mp hmem with hh | hh
    · subst hh
      exact ⟨hch.1, hch.2.1, hch.2.2.1, hch.2.2.2.1⟩
    · have := ih (hd.index.2.2 + 1) hch.2.2.2.2 h hh
      have hlo : lo ≤ hd.index.2.2 + 1 := by
        have := hch.1
        have := hch.2.1
        have := hch.2.2.1
        omega
      exact ⟨Nat.le_trans hlo this.1, this.2⟩

theorem applyHeadingPatches_length (hs : List Heading) :
    ∀ (F : List Event), (applyHeadingPatches F hs).length = F.length := by
  induction hs with
  | nil => intro F; rfl
  | cons hd tl ih =>
    intro F
    show (applyHeadingPatches (F.set hd.index.1 (Event.Html hd.html_start_element)) tl).length
      = F.length
    rw [ih, List.length_set]

theorem applyHeadingPatches_get_ne (hs : List Heading) :
    ∀ (F : List Event) (i : Nat), (∀ h ∈ hs, h.index.1 ≠ i) →
      (applyHeadingPatches F hs)[i]? = F[i]? := by
  induction hs with
  | nil => intro F i _; rfl
  | cons hd tl ih =>
    intro F i hne
    show (applyHeadingPatches (F.set hd.index.1 (Event.Html hd.html_start_element)) tl)[i]?
      = F[i]?
    rw [ih _ i (fun h hm => hne h (List.mem_cons_of_mem hd hm)),
      List.getElem?_set_ne (hne hd (List.mem_cons_self hd tl))]

theorem applyHeadingPatches_get_mem (hs : List Heading) :
    ∀ (lo : Nat) (F : List Event), HeadChain F.length lo hs → ∀ h ∈ hs,
      (applyHeadingPatches F hs)[h.index.1]? = some (Event.Html h.html_start_element) := by
  induction hs with
  | nil =>
    intro lo F _ h hmem
    simp at hmem
  | cons hd tl ih =>
    intro lo F hch h hmem
    have hfold : applyHeadingPatches F (hd :: tl)
        = applyHeadingPatches (F.set hd.index.1 (Event.Html hd.html_start_element)) tl := rfl
    rcases List.mem_cons.mp hmem with hh | hh
    · subst hh
      have huntouched : ∀ h' ∈ tl, h'.index.1 ≠ h.index.1 := by
        intro h' hm
        have hfacts := HeadChain_facts F.length tl (h.index.2.2 + 1) hch.2.2.2.2 h' hm
        have h1 := hch.2.1
        have h2 := hch.2.2.1
        omega
      rw [hfold, applyHeadingPatches_get_ne tl _ _ huntouched]
      refine List.getElem?_set_self ?_
      have h1 := hch.2.1
      have h2 := hch.2.2.1
      have h3 := hch.2.2.2.1
      omega
    · rw [hfold]
      refine ih (hd.index.2.2 + 1) _ ?_ h hh
      rw [List.length_set]
      exact hch.2.2.2.2

/-! Claims C10, C8, C2 and C3 about `fix_headings`. -/

/-- C10: the headings emitted by `fix_headings` are in strict document
order -- each satisfies start < text < end with all indices in bounds, and
each start lies strictly after the previous heading's end (`HeadChain` from
lower bound 0) -- and every emitted start index holds that heading's
original heading-start event (`HeadsOK`), so the in-place rewrite targets
the heading's own start position and the TOC builder receives the headings
sorted by position. -/
theorem fix_headings_heading_order (F : List Event) :
    HeadChain F.length 0 (fix_headings F).2 ∧ HeadsOK F (fix_headings F).2 := by
  have h := scan_spec F 0 .Idle F (by simp) trivial
  simpa [fix_headings, stLow] using h

/-- Witness for C10 at a concrete event sequence. -/
theorem fix_headings_heading_order_witness :
    HeadChain sampleHeadingEvents.length 0 (fix_headings sampleHeadingEvents).2 ∧
    (∃ L, sampleHeadingEvents[(0 : Nat)]? = some (Event.Start (Tag.Heading L)) ∧
      L % 256 = 2) := by
  refine ⟨(fix_headings_heading_order sampleHeadingEvents).1, ?_⟩
  have h := (fix_headings_heading_order sampleHeadingEvents).2
    { index := (0, 1, 2), level := 2, text := ['h', 'i'], slug := ['h', 'i'] }
    (by decide)
  simpa using h

/-- C8: `fix_headings` preserves the length (hence positions) of the event
sequence, rewrites exactly the events at the start indices of the emitted
headings to the id-carrying HTML start element, leaves every other position
unchanged; and a heading-start/end pair with mismatched levels yields no
heading and leaves the sequence untouched. -/
theorem fix_headings_frame (F : List Event) :
    (fix_headings F).1.length = F.length ∧
    (∀ h ∈ (fix_headings F).2,
      (fix_headings F).1[h.index.1]? = some (Event.Html h.html_start_element)) ∧
    (∀ i : Nat, (∀ h ∈ (fix_headings F).2, h.index.1 ≠ i) →
      (fix_headings F).1[i]? = F[i]?) ∧
    (∀ (L1 L2 : Nat) (t : List Char), L1 % 256 ≠ L2 % 256 →
      fix_headings [Event.Start (Tag.Heading L1), Event.Text t, Event.End (Tag.Heading L2)]
        = ([Event.Start (Tag.Heading L1), Event.Text t, Event.End (Tag.Heading L2)], [])) := by
  have hchain : HeadChain F.length 0 (scanHeadings F 0 .Idle) := by
    have h := (scan_spec F 0 .Idle F (by simp) trivial).1
    simpa [stLow] using h
  refine ⟨?_, ?_, ?_, ?_⟩
  · exact applyHeadingPatches_length _ F
  · intro h hmem
    exact applyHeadingPatches_get_mem _ 0 F hchain h hmem
  · intro i hne
    exact applyHeadingPatches_get_ne _ F i hne
  · intro L1 L2 t hne
    have hne' : ¬(L2 % 256 = L1 % 256) := fun hh => hne hh.symm
    simp [fix_headings, scanHeadings, headingStep, hne', applyHeadingPatches]

/-- Witness for C8 at concrete inputs. -/
theorem fix_headings_frame_witness :
    (fix_headings sampleHeadingEvents).1.length = sampleHeadingEvents.length ∧
    (fix_headings sampleHeadingEvents).1[(1 : Nat)]? = sampleHeadingEvents[(1 : Nat)]? ∧
    fix_headings [Event.Start (Tag.Heading 1), Event.Text ['a'], Event.End (Tag.Heading 2)]
      = ([Event.Start (Tag.Heading 1), Event.Text ['a'], Event.End (Tag.Heading 2)], []) :=
  ⟨(fix_headings_frame sampleHeadingEvents).1,
   (fix_headings_frame sampleHeadingEvents).2.2.1 1 (by decide),
   (fix_headings_frame sampleHeadingEvents).2.2.2 1 2 ['a'] (by decide)⟩

/-- C2 counterexample: a heading-start/end pair of matching level with two
text events strictly between them.  The scan emits a heading (the list is
nonempty) and the patch pass rewrites the start event, so the raw events do
not remain unmodified. -/
theorem fix_headings_multi_text_cex :
    (fix_headings [Event.Start (Tag.Heading 1), Event.Text ['a'], Event.Text ['b'],
      Event.End (Tag.Heading 1)]).2 ≠ [] ∧
    (fix_headings [Event.Start (Tag.Heading 1), Event.Text ['a'], Event.Text ['b'],
      Event.End (Tag.Heading 1)]).1
      ≠ [Event.Start (Tag.Heading 1), Event.Text ['a'], Event.Text ['b'],
         Event.End (Tag.Heading 1)] := by
  decide

theorem scanHeadings_texts_end (L ix tx : Nat) (t : List Char) (ts : List (List Char)) :
    ∀ (i : Nat),
      scanHeadings (ts.map Event.Text ++ [Event.End (Tag.Heading L)]) i
          (.HeadingTextParsed ix tx (L % 256) t)
        = [{ index := (ix, tx, i + ts.length), level := L % 256, text := t,
             slug := slugify_heading_for_anchor t }] := by
  induction ts with
  | nil =>
    intro i
    simp [scanHeadings, headingStep]
  | cons t2 ts ih =>
    intro i
    have hstep : headingStep i (Event.Text t2) (.HeadingTextParsed ix tx (L % 256) t)
        = (.HeadingTextParsed ix tx (L % 256) t, none) := rfl
    rw [List.map_cons, List.cons_append, scanHeadings_cons_none _ _ _ _ _ hstep, ih (i + 1)]
    have harith : i + 1 + ts.length = i + (t2 :: ts).length := by
      simp [List.length_cons]
      omega
    rw [harith]

/-- C2 amended: a heading-start and matching-level heading-end pair with two
or more text events strictly between them DOES produce exactly one Heading
record, whose text and text index come from the first text event (later
text events inside the heading are ignored), and the start event IS
rewritten to the id-carrying HTML fragment. -/
theorem fix_headings_multi_text_first (L : Nat) (t1 t2 : List Char) (ts : List (List Char)) :
    scanHeadings (Event.Start (Tag.Heading L) :: Event.Text t1 :: Event.Text t2 ::
        (ts.map Event.Text ++ [Event.End (Tag.Heading L)])) 0 .Idle
      = [{ index := (0, 1, ts.length + 3), level := L % 256, text := t1,
           slug := slugify_heading_for_anchor t1 }] ∧
    (fix_headings (Event.Start (Tag.Heading L) :: Event.Text t1 :: Event.Text t2 ::
        (ts.map Event.Text ++ [Event.End (Tag.Heading L)]))).1[(0 : Nat)]?
      = some (Event.Html (Heading.html_start_element
          { index := (0, 1, ts.length + 3), level := L % 256, text := t1,
            slug := slugify_heading_for_anchor t1 })) := by
  have h1 : headingStep 0 (Event.Start (Tag.Heading L)) .Idle
      = (.HeadingStarted 0 (L % 256), none) := rfl
  have h2 : headingStep 1 (Event.Text t1) (.HeadingStarted 0 (L % 256))
      = (.HeadingTextParsed 0 1 (L % 256) t1, none) := rfl
  have h3 : headingStep 2 (Event.Text t2) (.HeadingTextParsed 0 1 (L % 256) t1)
      = (.HeadingTextParsed 0 1 (L % 256) t1, none) := rfl
  have hscan : scanHeadings (Event.Start (Tag.Heading L) :: Event.Text t1 :: Event.Text t2 ::
      (ts.map Event.Text ++ [Event.End (Tag.Heading L)])) 0 .Idle
      = [{ index := (0, 1, ts.length + 3), level := L % 256, text := t1,
           slug := slugify_heading_for_anchor t1 }] := by
    rw [scanHeadings_cons_none _ _ _ _ _ h1, scanHeadings_cons_none _ _ _ _ _ h2,
      scanHeadings_cons_none _ _ _ _ _ h3, scanHeadings_texts_end L 0 1 t1 ts 3]
    have : (3 : Nat) + ts.length = ts.length + 3 := by omega
    rw [this]
  refine ⟨hscan, ?_⟩
  show (applyHeadingPatches _ (scanHeadings _ 0 .Idle))[(0 : Nat)]? = _
  rw [hscan]
  show ((List.set _ 0 _))[(0 : Nat)]? = _
  refine List.getElem?_set_self ?_
  simp

/-- C3 counterexample: after two consecutive heading-start events (levels 1
then 2), a text and a level-2 end -- which would complete the SECOND
heading if the scanner had continued from it -- produce no heading at all,
while a level-1 end -- completing the FIRST heading -- does produce one
anchored at index 0.  So the scanner does not drop the first start in favor
of the second. -/
theorem fix_headings_double_start_cex :
    scanHeadings [Event.Start (Tag.Heading 1), Event.Start (Tag.Heading 2),
      Event.Text ['a'], Event.End (Tag.Heading 2)] 0 .Idle = [] ∧
    scanHeadings [Event.Start (Tag.Heading 1), Event.Start (Tag.Heading 2),
      Event.Text ['a'], Event.End (Tag.Heading 1)] 0 .Idle
      = [{ index := (0, 2, 3), level := 1, text := ['a'], slug := ['a'] }] := by
  decide

/-- C3 amended: a second heading-start arriving while the scanner is in
`HeadingStarted` is ignored -- the state (hence the FIRST pending
heading-start) is kept unchanged, never backtracking -- and a subsequent
text and end matching the FIRST start's level complete the first heading. -/
theorem fix_headings_double_start_keeps_first (L L2 : Nat) (t : List Char) (i ix lv : Nat) :
    headingStep i (Event.Start (Tag.Heading L2)) (.HeadingStarted ix lv)
      = (.HeadingStarted ix lv, none) ∧
    scanHeadings [Event.Start (Tag.Heading L), Event.Start (Tag.Heading L2),
        Event.Text t, Event.End (Tag.Heading L)] 0 .Idle
      = [{ index := (0, 2, 3), level := L % 256, text := t,
           slug := slugify_heading_for_anchor t }] := by
  refine ⟨rfl, ?_⟩
  have h1 : headingStep 0 (Event.Start (Tag.Heading L)) .Idle
      = (.HeadingStarted 0 (L % 256), none) := rfl
  have h2 : headingStep 1 (Event.Start (Tag.Heading L2)) (.HeadingStarted 0 (L % 256))
      = (.HeadingStarted 0 (L % 256), none) := rfl
  have h3 : headingStep 2 (Event.Text t) (.HeadingStarted 0 (L % 256))
      = (.HeadingTextParsed 0 2 (L % 256) t, none) := rfl
  have h4 : headingStep 3 (Event.End (Tag.Heading L)) (.HeadingTextParsed 0 2 (L % 256) t)
      = (.Idle, some
          { index := (0, 2, 3), level := L % 256, text := t,
            slug := slugify_heading_for_anchor t }) := by
    simp [headingStep]
  rw [scanHeadings_cons_none _ _ _ _ _ h1, scanHeadings_cons_none _ _ _ _ _ h2,
    scanHeadings_cons_none _ _ _ _ _ h3, scanHeadings_cons_some _ _ _ _ _ _ h4]
  rfl

/-! Claim C4 about `markdown_to_html`. -/

/-- C4: `markdown_to_html` returns `toc = none` iff no raw-HTML event of the
parsed body contains the literal marker `<!-- toc -->`; and when a raw-HTML
event at position `i` does contain it, the flag is set for the whole
document (`toc` is present) and the serialized event at position `i` is that
event with the first occurrence of the marker removed. -/
theorem markdown_to_html_toc_spec (parsed : List Event) :
    ((markdown_to_html parsed).toc = none ↔
      ∀ s, Event.Html s ∈ parsed → containsSub TOC_FLAG s = false) ∧
    (∀ (i : Nat) (s : List Char), parsed[i]? = some (Event.Html s) →
      containsSub TOC_FLAG s = true →
      (markdown_to_html parsed).toc ≠ none ∧
      (markdown_to_html parsed).content[i]?
        = some (Event.Html (replacen TOC_FLAG [] 1 s))) := by
  constructor
  · have hiff : (markdown_to_html parsed).toc = none ↔ parsed.any isTocHtmlEvent = false := by
      by_cases hany : parsed.any isTocHtmlEvent
      · simp [markdown_to_html, hany]
      · simp [markdown_to_html, hany]
    rw [hiff, List.any_eq_false]
    constructor
    · intro hall s hmem
      have := hall _ hmem
      simpa [isTocHtmlEvent] using this
    · intro hall e hmem
      cases e with
      | Html s =>
        have := hall s hmem
        simp [isTocHtmlEvent, this]
      | Start t => simp [isTocHtmlEvent]
      | End t => simp [isTocHtmlEvent]
      | Text s => simp [isTocHtmlEvent]
      | Other k => simp [isTocHtmlEvent]
  · intro i s hget hcon
    have hmem : Event.Html s ∈ parsed := List.getElem?_mem hget
    have hany : parsed.any isTocHtmlEvent = true :=
      List.any_eq_true.mpr ⟨_, hmem, by simpa [isTocHtmlEvent] using hcon⟩
    have hmap : (parsed.map mapEvent)[i]? = some (Event.Html (replacen TOC_FLAG [] 1 s)) := by
      rw [List.getElem?_map, hget]
      simp [mapEvent, hcon]
    constructor
    · simp [markdown_to_html, hany]
    · have hcontent : (markdown_to_html parsed).content
          = (fix_headings (parsed.map mapEvent)).1 := by
        simp [markdown_to_html, hany]
      rw [hcontent]
      have hok : HeadsOK (parsed.map mapEvent)
          (scanHeadings (parsed.map mapEvent) 0 .Idle) :=
        (scan_spec (parsed.map mapEvent) 0 .Idle (parsed.map mapEvent) (by simp) trivial).2
      show (applyHeadingPatches (parsed.map mapEvent)
        (scanHeadings (parsed.map mapEvent) 0 .Idle))[i]? = _
      have hne : ∀ h ∈ scanHeadings (parsed.map mapEvent) 0 .Idle, h.index.1 ≠ i := by
        intro h hm hEq
        obtain ⟨L, hg, _⟩ := hok h hm
        rw [hEq, hmap] at hg
        simp at hg
      rw [applyHeadingPatches_get_ne _ _ i hne, hmap]

/-- Witness for C4 at a concrete parsed event sequence. -/
theorem markdown_to_html_toc_spec_witness :
    sampleTocEvents[(3 : Nat)]? = some (Event.Html ("a<!-- toc -->b".toList)) ∧
    containsSub TOC_FLAG ("a<!-- toc -->b".toList) = true ∧
    (markdown_to_html sampleTocEvents).toc ≠ none ∧
    (markdown_to_html sampleTocEvents).content[(3 : Nat)]?
      = some (Event.Html (replacen TOC_FLAG [] 1 ("a<!-- toc -->b".toList))) := by
  have h := (markdown_to_html_toc_spec sampleTocEvents).2 3 ("a<!-- toc -->b".toList)
    (by decide) (by decide)
  exact ⟨by decide, by decide, h.1, h.2⟩

/-! Claim C7 about `generate_toc_html`. -/

theorem countTok_append (t : List Char) (a b : List (List Char)) :
    countTok t (a ++ b) = countTok t a + countTok t b := by
  induction a with
  | nil => simp [countTok]
  | cons x xs ih =>
    simp [countTok, ih]
    omega

theorem countTok_replicate (t s : List Char) (n : Nat) :
    countTok t (List.replicate n s) = if s = t then n else 0 := by
  induction n with
  | zero => simp [countTok]
  | succ n ih =>
    by_cases h : s = t
    · subst h
      simp [List.replicate_succ, countTok, ih]
      omega
    · simp [List.replicate_succ, countTok, ih, h]

theorem tocEmit_flatten (hs : List Heading) : ∀ (indent : Nat),
    (tocEmit hs indent).flatten = tocLoop hs indent := by
  induction hs with
  | nil =>
    intro indent
    simp [tocEmit, tocLoop, strRepeat]
  | cons h tl ih =>
    intro indent
    by_cases h1 : indent < h.level
    · simp [tocEmit, tocLoop, h1, List.flatten_append, List.flatten_cons, ih, strRepeat,
        List.append_assoc]
    · by_cases h2 : h.level < indent
      · simp [tocEmit, tocLoop, h1, h2, List.flatten_append, List.flatten_cons, ih, strRepeat,
          List.append_assoc]
      · simp [tocEmit, tocLoop, h1, h2, List.flatten_cons, ih]

theorem toc_item_ne_indent (href text : List Char) :
    ¬ toc_item_html href text = TOC_INDENT := by
  intro h
  have h1 : (toc_item_html href text)[1]? = some 'p' := by
    simp [toc_item_html, TOC_ITEM]
  rw [h] at h1
  have h2 : TOC_INDENT[1]? = some 'd' := by decide
  rw [h2] at h1
  exact absurd h1 (by decide)

theorem toc_item_ne_end_indent (href text : List Char) :
    ¬ toc_item_html href text = TOC_END_INDENT := by
  intro h
  have h1 : (toc_item_html href text)[1]? = some 'p' := by
    simp [toc_item_html, TOC_ITEM]
  rw [h] at h1
  have h2 : TOC_END_INDENT[1]? = some '/' := by decide
  rw [h2] at h1
  exact absurd h1 (by decide)

theorem tocEmit_count (hs : List Heading) : ∀ (indent : Nat),
    countTok TOC_END_INDENT (tocEmit hs indent)
      = countTok TOC_INDENT (tocEmit hs indent) + indent := by
  induction hs with
  | nil =>
    intro indent
    have hne : ¬ (TOC_END_INDENT = TOC_INDENT) := by decide
    simp [tocEmit, countTok_replicate, hne]
  | cons h tl ih =>
    intro indent
    have hne : ¬ (TOC_END_INDENT = TOC_INDENT) := by decide
    have hne' : ¬ (TOC_INDENT = TOC_END_INDENT) := by decide
    have hni := toc_item_ne_indent h.slug h.text
    have hnd2 := toc_item_ne_end_indent h.slug h.text
    by_cases h1 : indent < h.level
    · simp [tocEmit, h1, countTok_append, countTok_replicate, countTok, hne, hne', hni,
        hnd2, ih h.level]
      omega
    · by_cases h2 : h.level < indent
      · simp [tocEmit, h1, h2, countTok_append, countTok_replicate, countTok, hne, hne',
          hni, hnd2, ih h.level]
        omega
      · have h3 : h.level = indent := by omega
        simp [tocEmit, h1, h2, countTok, hni, hnd2, h3]
        exact ih indent

/-- C7: the TOC string is the concatenation of the emitted tokens (group
markers and item fragments, in the order the algorithm pushes them: each
included heading of level above the running indent opens `level - indent`
groups, each of lower level closes `indent - level`, and after the last
heading the remaining `indent` groups are closed), and the emission contains
exactly as many open-group markers `<div>` as close-group markers `</div>`. -/
theorem generate_toc_html_balanced (headings : List Heading) (max_depth : Nat) :
    generate_toc_html headings max_depth = (tocTokens headings max_depth).flatten ∧
    countTok TOC_INDENT (tocTokens headings max_depth)
      = countTok TOC_END_INDENT (tocTokens headings max_depth) := by
  constructor
  · rw [generate_toc_html, tocTokens, tocEmit_flatten]
  · have h := tocEmit_count
      (headings.filter fun h => decide (1 ≤ h.level) && decide (h.level ≤ max_depth)) 0
    rw [tocTokens]
    omega
